import Mathlib

/-!
Verification development for the chrome-bookmark-organizer repository.

The repository's scripts share one data pipeline: a Netscape-bookmark-HTML
parser (either a regex scan, `clean_bookmarks.parse_bookmarks_simple`, or a
callback parser over start/end/text events, `organize_bookmarks.BookmarkParser`
and `create_hierarchical_viewer.HierarchicalBookmarkParser`), cleaning passes
(`organize_bookmarks.clean_bookmarks`, `is_valid_url`), folder-name analysis
(`create_hierarchical_viewer.analyze_folder_names`, `suggest_folder_name`) and
serializers (`categorize_bookmarks.save_categorized_bookmarks`,
`extract_math_coding.write_node`).

Everything below is a shallow embedding of those functions.  Python strings are
Lean Strings, but all operations are implemented directly on the underlying
character list (`String.data`) so that every definition evaluates inside the
kernel.  The event-driven parsers consume a `List Ev` of start-tag / end-tag /
text events, the events Python's html.parser delivers to the handlers; the
handler bodies are translated statement by statement.
-/

set_option maxRecDepth 1000000

/-! ## Basic character-list utilities (models of Python str operations) -/

/-- Whitespace test used by the model of Python str.strip. -/
def wsp (c : Char) : Bool :=
  c == ' ' || c == '\t' || c == '\n' || c == '\r'

/-- Model of Python str.strip on a character list: drop whitespace at both ends. -/
def trimL (l : List Char) : List Char :=
  ((l.dropWhile wsp).reverse.dropWhile wsp).reverse

/-- Model of Python str.strip. -/
def trimS (s : String) : String := String.mk (trimL s.data)

/-- Model of Python str.startswith. -/
def startsWithS (s pat : String) : Bool := pat.data.isPrefixOf s.data

/-- Substring search on character lists, model of Python `pat in s`. -/
def containsSub (pat : List Char) : List Char → Bool
  | [] => pat.isEmpty
  | c :: cs => pat.isPrefixOf (c :: cs) || containsSub pat cs

/-- Model of Python `pat in s` on Strings. -/
def containsS (s pat : String) : Bool := containsSub pat.data s.data

/-- Model of Python `'/'.join(stack)`-style joining. -/
def joinWith (sep : String) : List String → String
  | [] => ""
  | [x] => x
  | x :: xs => x ++ sep ++ joinWith sep xs

/-- Model of Python `dict(attrs).get(k)`: later duplicate keys win, as in dict(). -/
def attrGet (attrs : List (String × String)) (k : String) : Option String :=
  attrs.foldl (fun acc p => if p.1 = k then some p.2 else acc) none

/-- Decimal digit character (0-9; callers only pass values below 10). -/
def digitCh (n : Nat) : Char :=
  if n = 0 then '0' else if n = 1 then '1' else if n = 2 then '2' else if n = 3 then '3'
  else if n = 4 then '4' else if n = 5 then '5' else if n = 6 then '6' else if n = 7 then '7'
  else if n = 8 then '8' else '9'

/-- Decimal representation of a Nat, fuel-structured so it evaluates in the kernel;
this embeds the f-string interpolation of `len(bookmarks)`. -/
def natDigsGo : Nat → Nat → List Char
  | 0, _ => []
  | fuel + 1, n => if n < 10 then [digitCh n] else natDigsGo fuel (n / 10) ++ [digitCh (n % 10)]

/-- Decimal representation of a Nat as characters. -/
def natDigs (n : Nat) : List Char := natDigsGo (n + 1) n

/-! ## Events delivered by the markup tokenizer

The repository's parsers subclass html.parser.HTMLParser and only look at the
start-tag, end-tag and text callbacks; we embed the handler bodies as a fold
over the event list the tokenizer produces (tag and attribute names arrive
lower-cased, as html.parser delivers them). -/

/-- A tokenizer event: start tag with attributes, end tag, or a text run. -/
inductive Ev where
  | startTag (tag : String) (attrs : List (String × String))
  | endTag (tag : String)
  | text (s : String)

/-! ## Embedding of clean_bookmarks.parse_bookmarks_simple

The Python function runs
`re.findall(r'<DT><A HREF="([^"]*)"[^>]*>([^<]*)</A>', content)`.
The regex is deterministic: after the literal `<DT><A HREF="`, group 1 is the
text up to the next `"` (which must exist), then everything up to the next `>`
is skipped (which must exist), then group 2 is the text up to the next `<`,
where the literal `</A>` must start.  `findall` scans left to right, restarts
one character later after a failed match, and resumes after the end of a
successful match.  `tryMatch`/`scanF` implement exactly that. -/

/-- The literal head of the bookmark regex. -/
def lit : List Char := "<DT><A HREF=\"".data

/-- The literal tail of the bookmark regex. -/
def endA : List Char := "</A>".data

/-- Split at the first occurrence of `c`: `[^c]*c` with a mandatory `c`. -/
def splitOnChar (c : Char) (l : List Char) : Option (List Char × List Char) :=
  match l.dropWhile (· != c) with
  | [] => none
  | _ :: rest => some (l.takeWhile (· != c), rest)

/-- Attempt the bookmark regex at the head of `s`; on success return
(group 1, group 2, rest of the input after the match). -/
def tryMatch (s : List Char) : Option (List Char × List Char × List Char) :=
  if lit.isPrefixOf s then
    (splitOnChar '"' (s.drop lit.length)).bind fun p =>
      (splitOnChar '>' p.2).bind fun q =>
        if endA.isPrefixOf (q.2.drop (q.2.takeWhile (· != '<')).length) then
          some (p.1, q.2.takeWhile (· != '<'),
            (q.2.drop (q.2.takeWhile (· != '<')).length).drop endA.length)
        else none
  else none

/-- Fueled left-to-right scan implementing re.findall for the bookmark regex. -/
def scanF : Nat → List Char → List (List Char × List Char)
  | 0, _ => []
  | _, [] => []
  | fuel + 1, c :: cs =>
    match tryMatch (c :: cs) with
    | some (u, t, r) => (u, t) :: scanF fuel r
    | none => scanF fuel cs

/-- re.findall of the bookmark regex over a character list. -/
def scan (s : List Char) : List (List Char × List Char) := scanF s.length s

/-- Embedding of clean_bookmarks.parse_bookmarks_simple (and the identical copy
in categorize_bookmarks.py): regex-extract `(url, title.strip())` pairs from the
file content. -/
def parse_bookmarks_simple (content : String) : List (String × String) :=
  (scan content.data).map (fun p => (String.mk p.1, String.mk (trimL p.2)))

/-! ## Embedding of categorize_bookmarks.save_categorized_bookmarks

The Python function writes a fixed header, then for each category (in sorted
key order — our model takes the already-ordered association list as input) a
folder line and its bookmark lines with `"` escaped in hrefs and `< >` escaped
in titles, then a fixed footer.  We model the file content it produces. -/

/-- url.replace('"', '&quot;'). -/
def escQuot : List Char → List Char
  | [] => []
  | c :: cs => (if c = '"' then "&quot;".data else [c]) ++ escQuot cs

/-- title.replace('<', '&lt;'). -/
def escLt : List Char → List Char
  | [] => []
  | c :: cs => (if c = '<' then "&lt;".data else [c]) ++ escLt cs

/-- .replace('>', '&gt;') applied after escLt. -/
def escGt : List Char → List Char
  | [] => []
  | c :: cs => (if c = '>' then "&gt;".data else [c]) ++ escGt cs

/-- A bookmark record as written by the categorized serializer. -/
structure Bm where
  url : String
  title : String
deriving DecidableEq

/-- The fixed header written by save_categorized_bookmarks. -/
def catHeader : String :=
  "<!DOCTYPE NETSCAPE-Bookmark-file-1>\n<!-- This is an automatically generated file.\n     It will be read and overwritten.\n     DO NOT EDIT! -->\n<META HTTP-EQUIV=\"Content-Type\" CONTENT=\"text/html; charset=UTF-8\">\n<TITLE>Bookmarks</TITLE>\n<H1>Bookmarks</H1>\n<DL><p>\n"

/-- The category folder heading plus its opening DL line. -/
def catLine (c : String) (n : Nat) : List Char :=
  "    <DT><H3 ADD_DATE=\"1703861181\" LAST_MODIFIED=\"1766439577\">".data
    ++ c.data ++ " (".data ++ natDigs n ++ ")</H3>\n    <DL><p>\n".data

/-- One serialized bookmark line (8-space indent), with href and title escaping. -/
def bmLine8 (b : Bm) : List Char :=
  "        ".data ++ lit ++ escQuot b.url.data
    ++ '"' :: '>' :: (escGt (escLt b.title.data) ++ endA ++ ['\n'])

/-- One category block: heading, bookmarks, closing DL line. -/
def catBlock (p : String × List Bm) : List Char :=
  catLine p.1 p.2.length ++ p.2.flatMap bmLine8 ++ "    </DL><p>\n".data

/-- Embedding of save_categorized_bookmarks: the full file content produced for
an ordered list of (category, bookmarks) pairs. -/
def save_categorized_bookmarks (cats : List (String × List Bm)) : String :=
  String.mk (catHeader.data ++ cats.flatMap catBlock ++ "</DL><p>\n".data)

/-! ## Embedding of organize_bookmarks.BookmarkParser, is_valid_url and
clean_bookmarks -/

/-- A flat bookmark record as built by organize_bookmarks.BookmarkParser
(the add_date/icon/raw-attrs fields of the Python dict are carried unchanged
from the tag attributes and play no role in the claims; we keep the three
fields the claims talk about). -/
structure OBm where
  url : String
  title : String
  folder_path : String
deriving DecidableEq

/-- Mutable state of organize_bookmarks.BookmarkParser. -/
structure OState where
  bookmarks : List OBm
  folder_stack : List String
  current_bookmark : Option OBm
  pending_folder : Option String
  in_h3 : Bool
deriving DecidableEq

/-- organize_bookmarks.BookmarkParser.handle_starttag. -/
def o_handle_starttag (σ : OState) (tag : String) (attrs : List (String × String)) : OState :=
  if tag = "h3" then
    { σ with in_h3 := true, pending_folder := some "" }
  else if tag = "a" then
    let bm : OBm := ⟨(attrGet attrs "href").getD "", "", joinWith "/" σ.folder_stack⟩
    { σ with current_bookmark := some bm }
  else if tag = "dl" then
    match σ.pending_folder with
    | some n => { σ with folder_stack := σ.folder_stack ++ [n], pending_folder := none }
    | none => σ
  else σ

/-- organize_bookmarks.BookmarkParser.handle_endtag (note: no branch for a). -/
def o_handle_endtag (σ : OState) (tag : String) : OState :=
  if tag = "h3" then { σ with in_h3 := false }
  else if tag = "dl" then { σ with folder_stack := σ.folder_stack.dropLast }
  else σ

/-- organize_bookmarks.BookmarkParser.handle_data. -/
def o_handle_data (σ : OState) (s : String) : OState :=
  let d := trimS s
  if d = "" then σ
  else if σ.in_h3 && σ.pending_folder.isSome then
    { σ with pending_folder := some d }
  else
    match σ.current_bookmark with
    | some bm =>
      { σ with bookmarks := σ.bookmarks ++ [{ bm with title := d }],
               current_bookmark := none }
    | none => σ

/-- Dispatch one event to the organize_bookmarks parser handlers. -/
def oStep (σ : OState) : Ev → OState
  | .startTag t a => o_handle_starttag σ t a
  | .endTag t => o_handle_endtag σ t
  | .text s => o_handle_data σ s

/-- Fresh organize_bookmarks.BookmarkParser state. -/
def oInit : OState := ⟨[], [], none, none, false⟩

/-- Feed events from a given state. -/
def oRunFrom (σ : OState) (evs : List Ev) : OState := evs.foldl oStep σ

/-- Feed events to a fresh organize_bookmarks.BookmarkParser. -/
def oRun (evs : List Ev) : OState := oRunFrom oInit evs

/-- Embedding of organize_bookmarks.is_valid_url: (is-valid, reason).  The
Python function reassigns `url = url.strip()` before all checks; the model
applies trimS at each use of the stripped url. -/
def is_valid_url (url : String) : Bool × String :=
  if trimS url = "" then (false, "empty")
  else if startsWithS (trimS url) "chrome://"
      || startsWithS (trimS url) "chrome-extension://" then (false, "chrome_url")
  else if startsWithS (trimS url) "javascript:" then (false, "javascript")
  else if startsWithS (trimS url) "file://" then (false, "file")
  else if containsS (trimS url) "localhost"
      || containsS (trimS url) "127.0.0.1" then (false, "localhost")
  else if !(startsWithS (trimS url) "http") then (false, "invalid_protocol")
  else (true, "valid")

/-- The loop body of organize_bookmarks.clean_bookmarks: skip urls already seen,
skip invalid urls, keep everything else and record the url as seen. -/
def clean_go (seen : List String) : List OBm → List OBm
  | [] => []
  | bm :: rest =>
    if bm.url ∈ seen then clean_go seen rest
    else if !(is_valid_url bm.url).1 then clean_go seen rest
    else bm :: clean_go (bm.url :: seen) rest

/-- Embedding of organize_bookmarks.clean_bookmarks (the duplicates argument is
only used for reporting in Python and does not influence the result). -/
def clean_bookmarks (bms : List OBm) : List OBm := clean_go [] bms

/-- The validity predicate exactly as claim C10 words it, applied to the raw
URL string: starts with "http"; does not start with chrome://,
chrome-extension://, javascript:, or file://; and contains neither "localhost"
nor "127.0.0.1".  This definition follows the claim's words, for comparison
with the source's is_valid_url. -/
def claimValidUrl (url : String) : Bool :=
  startsWithS url "http"
    && !(startsWithS url "chrome://") && !(startsWithS url "chrome-extension://")
    && !(startsWithS url "javascript:") && !(startsWithS url "file://")
    && !(containsS url "localhost") && !(containsS url "127.0.0.1")

/-- The cleaning operation exactly as claim C10 words it, parameterised by the
validity predicate: keep, for each distinct URL satisfying the predicate, the
first bookmark carrying it, unchanged and in order; drop everything else. -/
def claimClean_go (valid : String → Bool) (prev : List String) : List OBm → List OBm
  | [] => []
  | bm :: rest =>
    if bm.url ∈ prev then claimClean_go valid (bm.url :: prev) rest
    else if valid bm.url then bm :: claimClean_go valid (bm.url :: prev) rest
    else claimClean_go valid (bm.url :: prev) rest

/-- The claim-C10 cleaning view with the claim's raw-URL predicate. -/
def claimClean (bms : List OBm) : List OBm := claimClean_go claimValidUrl [] bms

/-- The claim-C10 cleaning view with the predicate applied to the
whitespace-stripped URL (the amended reading). -/
def claimCleanTrim (bms : List OBm) : List OBm :=
  claimClean_go (fun u => claimValidUrl (trimS u)) [] bms

/-! ## Embedding of create_hierarchical_viewer.HierarchicalBookmarkParser

The Python parser mutates a tree of dicts in place through a current_path
stack whose bottom element is the synthetic root.  We embed it as a zipper:
`path` is the stack of open folder frames (head = innermost); a frame holds the
folder fields plus its children built so far; popping a frame appends the
finished folder to its parent's children, which is when the Python version's
in-place attachment becomes visible in the functional model.  The dict key
suggested_name that analyze_folder_names may add later is the `suggested`
field, absent (none) at parse time; the name key, absent until the closing H3
sets it, is an Option. -/

/-- A tree node: folder dict or bookmark dict. -/
inductive HNode where
  | folder (name : Option String) (attrs : List (String × String)) (level : Int)
      (suggested : Option String) (children : List HNode)
  | bookmark (name : String) (url : String) (level : Int)

/-- An open folder frame on the current_path stack. -/
structure HFrame where
  name : Option String
  attrs : List (String × String)
  level : Int
  done : List HNode

/-- Parser state of HierarchicalBookmarkParser. -/
structure HState where
  path : List HFrame
  pending : Option HFrame
  in_h3 : Bool
  in_a : Bool
  current_text : String
  current_attrs : List (String × String)

/-- The synthetic root frame ({'name': 'root', 'type': 'folder', 'children': [], 'level': -1}). -/
def hInitFrame : HFrame := ⟨some "root", [], -1, []⟩

/-- Fresh HierarchicalBookmarkParser state. -/
def hInit : HState := ⟨[hInitFrame], none, false, false, "", []⟩

/-- Close a frame into its parent: the finished folder becomes the parent's
last child (Python attaches at push time and mutates in place; the zipper
makes the attachment visible at pop time, with the same resulting tree). -/
def attachFrame (parent top : HFrame) : HFrame :=
  { parent with done := parent.done ++ [HNode.folder top.name top.attrs top.level none top.done] }

/-- HierarchicalBookmarkParser.handle_starttag. -/
def h_handle_starttag (σ : HState) (tag : String) (attrs : List (String × String)) : HState :=
  if tag = "h3" then
    { σ with in_h3 := true, current_text := "", current_attrs := attrs,
             pending := some ⟨none, attrs, (σ.path.length : Int) - 1, []⟩ }
  else if tag = "dl" then
    match σ.pending with
    | some p => { σ with path := p :: σ.path, pending := none }
    | none => σ
  else if tag = "a" then
    { σ with in_a := true, current_text := "", current_attrs := attrs }
  else σ

/-- HierarchicalBookmarkParser.handle_endtag. -/
def h_handle_endtag (σ : HState) (tag : String) : HState :=
  if tag = "h3" then
    { σ with in_h3 := false,
             pending := σ.pending.map (fun p => { p with name := some (trimS σ.current_text) }) }
  else if tag = "a" then
    { σ with in_a := false,
             path :=
               match σ.path with
               | top :: rest =>
                 { top with done := top.done ++
                     [HNode.bookmark (trimS σ.current_text)
                       ((attrGet σ.current_attrs "href").getD "")
                       ((σ.path.length : Int) - 1)] } :: rest
               | [] => [] }
  else if tag = "dl" then
    match σ.path with
    | top :: parent :: rest => { σ with path := attachFrame parent top :: rest }
    | _ => σ
  else σ

/-- HierarchicalBookmarkParser.handle_data. -/
def h_handle_data (σ : HState) (s : String) : HState :=
  if σ.in_h3 || σ.in_a then { σ with current_text := σ.current_text ++ s } else σ

/-- Dispatch one event to the HierarchicalBookmarkParser handlers. -/
def hStep (σ : HState) : Ev → HState
  | .startTag t a => h_handle_starttag σ t a
  | .endTag t => h_handle_endtag σ t
  | .text s => h_handle_data σ s

/-- Feed events from a given state. -/
def hRunFrom (σ : HState) (evs : List Ev) : HState := evs.foldl hStep σ

/-- Feed events to a fresh HierarchicalBookmarkParser. -/
def hRun (evs : List Ev) : HState := hRunFrom hInit evs

/-- Fold the remaining open frames down to the bottom one (frames left open at
end of stream are implicitly closed; in Python their content is already
attached in place, with the same resulting tree). -/
def collapseGo : HFrame → List HFrame → HFrame
  | top, [] => top
  | top, parent :: rest => collapseGo (attachFrame parent top) rest

/-- The folder node a frame denotes. -/
def frameNode (f : HFrame) : HNode := HNode.folder f.name f.attrs f.level none f.done

/-- The tree owned by a parser state (parser.tree after feed returns). -/
def hTree (σ : HState) : HNode :=
  match σ.path with
  | [] => frameNode hInitFrame
  | top :: rest => frameNode (collapseGo top rest)

/-- Parse an event stream with HierarchicalBookmarkParser and return the tree. -/
def parseHier (evs : List Ev) : HNode := hTree (hRun evs)

/-! ## Embedding of create_hierarchical_viewer.suggest_folder_name and
analyze_folder_names -/

/-- Position-by-position search for `https?://(?:www\.)?` at the head: returns
the remainder after the scheme when the regex head matches here. -/
def matchHttp (l : List Char) : Option (List Char) :=
  if "https://".data.isPrefixOf l then some (l.drop 8)
  else if "http://".data.isPrefixOf l then some (l.drop 7)
  else none

/-- After the scheme: optionally skip `www.` (with regex backtracking when the
rest would leave `([^/]+)` empty), then capture up to the next `/`. -/
def domAfter (r : List Char) : Option (List Char) :=
  if "www.".data.isPrefixOf r then
    let d := (r.drop 4).takeWhile (· != '/')
    if d = [] then
      let d₂ := r.takeWhile (· != '/')
      if d₂ = [] then none else some d₂
    else some d
  else
    let d := r.takeWhile (· != '/')
    if d = [] then none else some d

/-- re.search of `https?://(?:www\.)?([^/]+)` over a character list. -/
def searchDomain : Nat → List Char → Option (List Char)
  | 0, _ => none
  | _, [] => none
  | fuel + 1, c :: cs =>
    match matchHttp (c :: cs) with
    | some r =>
      match domAfter r with
      | some d => some d
      | none => searchDomain fuel cs
    | none => searchDomain fuel cs

/-- Domain extracted from a url by suggest_folder_name's regex search. -/
def extractDomain (u : String) : Option String :=
  (searchDomain u.data.length u.data).map String.mk

/-- Increment a key's count in an insertion-ordered association list
(model of a Python dict used as a counter). -/
def bumpCount (key : String) : List (String × Nat) → List (String × Nat)
  | [] => [(key, 1)]
  | p :: rest => if p.1 = key then (p.1, p.2 + 1) :: rest else p :: bumpCount key rest

/-- First maximal entry of a counter in insertion order
(model of Python max over dict items with a count key). -/
def maxFirst : List (String × Nat) → Option (String × Nat)
  | [] => none
  | p :: rest =>
    match maxFirst rest with
    | none => some p
    | some q => if q.2 > p.2 then some q else some p

/-- The domain-to-label table of suggest_folder_name (an if/elif chain of
substring tests on the most frequent domain). -/
def labelOfDomain (d : String) : Option String :=
  if containsS d "github" then some "GitHub関連"
  else if containsS d "youtube" || containsS d "youtu.be" then some "YouTube"
  else if containsS d "qiita" then some "Qiita記事"
  else if containsS d "zenn" then some "Zenn記事"
  else if containsS d "twitter" || containsS d "x.com" then some "Twitter/X"
  else if containsS d "note" then some "note"
  else if containsS d "amazon" then some "Amazon"
  else if containsS d "google" || containsS d "docs" || containsS d "drive" || containsS d "sheet"
    then some "Google関連"
  else none

/-- Word-forming character class of the title-keyword regex
`[ぁ-んァ-ヶー一-龯a-zA-Z]+`. -/
def wordChar (c : Char) : Bool :=
  let v := c.toNat
  (0x3041 ≤ v && v ≤ 0x3093) || (0x30A1 ≤ v && v ≤ 0x30F6) || v == 0x30FC
    || (0x4E00 ≤ v && v ≤ 0x9FAF) || (97 ≤ v && v ≤ 122) || (65 ≤ v && v ≤ 90)

/-- Split a character list into maximal word-character runs (re.findall of the
keyword regex); acc holds the current run reversed. -/
def wordsGo (acc : List Char) : List Char → List (List Char)
  | [] => if acc = [] then [] else [acc.reverse]
  | c :: cs =>
    if wordChar c then wordsGo (c :: acc) cs
    else if acc = [] then wordsGo [] cs
    else acc.reverse :: wordsGo [] cs

/-- Word-like substrings of a title. -/
def wordsOf (s : String) : List String := (wordsGo [] s.data).map String.mk

/-- url field of a node (bookmark dicts carry url; folders have none). -/
def nodeUrl : HNode → String
  | .bookmark _ u _ => u
  | .folder _ _ _ _ _ => ""

/-- name field of a node as suggest_folder_name reads it. -/
def nodeName : HNode → String
  | .bookmark n _ _ => n
  | .folder n _ _ _ _ => n.getD ""

/-- Is the node a bookmark dict? -/
def isBookmark : HNode → Bool
  | .bookmark _ _ _ => true
  | .folder _ _ _ _ _ => false

/-- Embedding of create_hierarchical_viewer.suggest_folder_name: propose a
label from the direct bookmark children, first by most-frequent domain, then
by repeated title keywords. -/
def suggest_folder_name (bookmarks : List HNode) : Option String :=
  match bookmarks with
  | [] => none
  | _ =>
    let urls := (bookmarks.map nodeUrl).filter (fun u => u != "")
    let names := bookmarks.map nodeName
    let domains := urls.foldl
      (fun acc u =>
        match extractDomain u with
        | some d => bumpCount d acc
        | none => acc) []
    let domLabel :=
      match maxFirst domains with
      | some top => labelOfDomain top.1
      | none => none
    match domLabel with
    | some l => some l
    | none =>
      let keywords := (names.take 5).foldl
        (fun acc n =>
          (wordsOf n).foldl
            (fun a w => if w.length > 1 then bumpCount w a else a) acc) []
      match maxFirst keywords with
      | some top => if top.2 ≥ 2 then some (top.1 ++ "関連") else none
      | none => none

/-- The generic placeholder names that trigger a suggestion. -/
def genericNames : List (Option String) :=
  [some "新しいフォルダ", some "仮置き", some "名前のないフォルダ", some ""]

mutual

/-- Embedding of analyze_folder_names's analyze_children on one node: when the
folder's name is generic and a suggestion exists, it is stored in the node's
suggested_name field; recursion continues into child folders. -/
def analyzeNode : HNode → HNode
  | .bookmark n u l => .bookmark n u l
  | .folder n a l s cs =>
    let bms := cs.filter isBookmark
    let s' :=
      if n ∈ genericNames then
        match suggest_folder_name bms with
        | some sug => some sug
        | none => s
      else s
    .folder n a l s' (analyzeList cs)

/-- analyze_children over a children list. -/
def analyzeList : List HNode → List HNode
  | [] => []
  | c :: cs => analyzeNode c :: analyzeList cs

end

/-- Embedding of create_hierarchical_viewer.analyze_folder_names: the in-place
mutation of the tree, as the tree-to-tree function it performs. -/
def analyze_folder_names (tree : HNode) : HNode := analyzeNode tree

mutual

/-- Erase every suggested_name field of a tree, keeping name, url, attributes,
children and order: the projection of a node onto the fields claim C8 lists. -/
def forgetNode : HNode → HNode
  | .bookmark n u l => .bookmark n u l
  | .folder n a l _ cs => .folder n a l none (forgetList cs)

/-- forgetNode over a children list. -/
def forgetList : List HNode → List HNode
  | [] => []
  | c :: cs => forgetNode c :: forgetList cs

end

/-- The suggested_name field of a folder node. -/
def getSuggested : HNode → Option String
  | .folder _ _ _ s _ => s
  | .bookmark _ _ _ => none

mutual

/-- Does a folder named `nm` occur anywhere in the tree? -/
def hasFolderNamed (nm : String) : HNode → Bool
  | .bookmark _ _ _ => false
  | .folder n _ _ _ cs => n == some nm || hasFolderNamedL nm cs

/-- hasFolderNamed over a children list. -/
def hasFolderNamedL (nm : String) : List HNode → Bool
  | [] => false
  | c :: cs => hasFolderNamed nm c || hasFolderNamedL nm cs

end

/-! ## Embedding of extract_math_coding.write_node -/

/-- A node of the tree extract_math_coding serializes (null_folder frames are
never attached to the tree, so serialized trees contain folders and bookmarks). -/
inductive MNode where
  | folder (name : String) (attrs : List (String × String)) (children : List MNode)
  | bookmark (name : String) (url : String) (attrs : List (String × String))

mutual

/-- Embedding of extract_math_coding.write_node: a folder with an empty
children list yields no lines; otherwise its heading line, opening DL, its
children's lines at deeper indent, and closing DL; a bookmark yields one line
with href `"`-escaped and name `< >`-escaped. -/
def write_node : MNode → String → List String
  | .folder name attrs children, indent =>
    match children with
    | [] => []
    | _ :: _ =>
      let add_date := (attrGet attrs "add_date").getD "1704067200"
      let last_modified := (attrGet attrs "last_modified").getD "1735606800"
      (indent ++ "<DT><H3 ADD_DATE=\"" ++ add_date ++ "\" LAST_MODIFIED=\""
          ++ last_modified ++ "\">" ++ name ++ "</H3>")
        :: (indent ++ "<DL><p>")
        :: (write_nodes children (indent ++ "    ") ++ [indent ++ "</DL><p>"])
  | .bookmark name url attrs, indent =>
    let href := (attrGet attrs "href").getD url
    let add_date := (attrGet attrs "add_date").getD "1704067200"
    [indent ++ "<DT><A HREF=\"" ++ String.mk (escQuot href.data) ++ "\" ADD_DATE=\""
      ++ add_date ++ "\">" ++ String.mk (escGt (escLt name.data)) ++ "</A>"]

/-- write_node over a children list, in order. -/
def write_nodes : List MNode → String → List String
  | [], _ => []
  | c :: cs, indent => write_node c indent ++ write_nodes cs indent

end

mutual

/-- Embedding of create_hierarchical_viewer.count_items: the number of
descendant bookmarks below a node. -/
def count_node : MNode → Nat
  | .bookmark _ _ _ => 1
  | .folder _ _ cs => count_items cs

/-- Descendant bookmark count of a children list. -/
def count_items : List MNode → Nat
  | [] => 0
  | c :: cs => count_node c + count_items cs

end

/-! ## Event sequences used by the claims -/

/-- The events of one sibling bookmark `<DT><A HREF="url">title</A>`. -/
def bmEvs (p : String × String) : List Ev :=
  [.startTag "dt" [], .startTag "a" [("href", p.1)], .text p.2, .endTag "a"]

/-- The spec's dangling-label example: an H3 heading immediately followed by a
sibling bookmark, no DL in between. -/
def orphanEvs : List Ev :=
  [.startTag "h3" [], .text "Orphan", .endTag "h3"] ++ bmEvs ("http://x", "X")

/-- Open a named folder region: `<H3>f</H3><DL>`. -/
def openFolder (f : String) : List Ev :=
  [.startTag "h3" [], .text f, .endTag "h3", .startTag "dl" []]

/-! ## Documents used by claims C1 and C5 -/

/-- The first 12 characters of the bookmark-regex literal (everything before
its opening quote). -/
def lit12 : List Char := "<DT><A HREF=".data

/-- A well-formed unindented bookmark line `<DT><A HREF="u">t</A>` plus newline,
as C5's generic document contains. -/
def wellLineD (p : String × String) : List Char :=
  lit ++ p.1.data ++ '"' :: '>' :: (p.2.data ++ endA ++ ['\n'])

/-- A bookmark tag whose href quote is never terminated: `<DT><A HREF="u` plus
newline. -/
def malTagD (u : String) : List Char :=
  lit ++ u.data ++ ['\n']

/-- A document of well-formed bookmark lines. -/
def wellDoc (bms : List (String × String)) : List Char := bms.flatMap wellLineD

/-! ## Proof-infrastructure definitions -/

/-- A chunk of output the regex scanner can never start a successful match in,
wherever it sits: every nonempty suffix of it, continued by anything, fails
`tryMatch`. -/
def SafeChunk (l : List Char) : Prop :=
  ∀ t, t <:+ l → t ≠ [] → ∀ r, tryMatch (t ++ r) = none

/-- Decidable sufficient condition for SafeChunk on concrete chunks: no tail of
length ≥ 13 starts with the regex literal, and no shorter nonempty tail is a
prefix of it. -/
def safeB (l : List Char) : Bool :=
  l.tails.all (fun t =>
    t.isEmpty || (if 13 ≤ t.length then !(lit.isPrefixOf t) else !(t.isPrefixOf lit)))

/-- Stack invariant of claim C9: the current-folder stack is non-empty and its
bottom frame is the synthetic root (name "root", empty attributes, level -1). -/
def pathOk (σ : HState) : Prop :=
  σ.path ≠ [] ∧
    ∀ fr ∈ σ.path.getLast?, fr.name = some "root" ∧ fr.attrs = [] ∧ fr.level = -1

/-! # Lemmas

## The regex scanner -/

theorem scanF_nil (n : Nat) : scanF n [] = [] := by cases n <;> rfl

theorem isPre_iff : ∀ (a b : List Char), a.isPrefixOf b = true ↔ a <+: b := by
  intro a
  induction a with
  | nil =>
    intro b
    exact iff_of_true (by simp [List.isPrefixOf]) (List.nil_prefix)
  | cons c a ih =>
    intro b
    cases b with
    | nil => simp [List.isPrefixOf]
    | cons d b =>
      simp [List.isPrefixOf, List.cons_prefix_cons, Bool.and_eq_true, beq_iff_eq, ih b]

theorem isPre_false_of_not {a b : List Char} (h : ¬ a <+: b) : a.isPrefixOf b = false := by
  cases hb : a.isPrefixOf b with
  | false => rfl
  | true => exact absurd ((isPre_iff a b).mp hb) h

theorem isPre_app_self (a b : List Char) : a.isPrefixOf (a ++ b) = true :=
  (isPre_iff a (a ++ b)).mpr (List.prefix_append a b)

theorem splitOnChar_length {c : Char} {l p r : List Char}
    (h : splitOnChar c l = some (p, r)) : r.length < l.length := by
  unfold splitOnChar at h
  cases hd : l.dropWhile (· != c) with
  | nil => rw [hd] at h; exact absurd h (by simp)
  | cons x rest =>
    rw [hd] at h
    have hsub : List.Sublist (x :: rest) l := by
      have := List.dropWhile_sublist (l := l) (p := (· != c))
      rwa [hd] at this
    have hlen : rest.length + 1 ≤ l.length := by
      simpa using hsub.length_le
    have hr : r = rest := by
      simp only [Option.some.injEq, Prod.mk.injEq] at h
      exact h.2.symm
    subst hr
    omega

theorem tryMatch_length {s : List Char} {u t r : List Char}
    (h : tryMatch s = some (u, t, r)) : r.length < s.length := by
  unfold tryMatch at h
  split at h
  case isTrue hpre =>
    have hslen : 13 ≤ s.length := by
      have := ((isPre_iff _ _).mp hpre).length_le
      simpa [lit] using this
    cases h1 : splitOnChar '"' (s.drop lit.length) with
    | none => rw [h1] at h; exact absurd h (by simp)
    | some p =>
      obtain ⟨u1, r2⟩ := p
      rw [h1] at h
      simp only [Option.some_bind] at h
      have hr2 : r2.length < s.length - 13 := by
        have := splitOnChar_length h1
        simpa [lit, List.length_drop] using this
      cases h2 : splitOnChar '>' r2 with
      | none => rw [h2] at h; exact absurd h (by simp)
      | some q =>
        obtain ⟨w, r3⟩ := q
        rw [h2] at h
        simp only [Option.some_bind] at h
        have hr3 : r3.length < r2.length := splitOnChar_length h2
        split at h
        case isTrue hend =>
          simp only [Option.some.injEq, Prod.mk.injEq] at h
          have hr : r = (r3.drop (r3.takeWhile (· != '<')).length).drop endA.length :=
            h.2.2.symm
          have : r.length ≤ r3.length := by
            rw [hr]; simp only [List.length_drop]; omega
          omega
        case isFalse => exact absurd h (by simp)
  case isFalse => exact absurd h (by simp)

theorem scanF_stable : ∀ (n m : Nat) (s : List Char),
    s.length ≤ n → s.length ≤ m → scanF n s = scanF m s := by
  intro n
  induction n with
  | zero =>
    intro m s hn _
    have : s = [] := List.length_eq_zero.mp (Nat.le_zero.mp hn)
    subst this
    simp [scanF_nil]
  | succ n ih =>
    intro m s hn hm
    cases s with
    | nil => simp [scanF_nil]
    | cons c cs =>
      cases m with
      | zero => exact absurd hm (by simp)
      | succ m =>
        show scanF (n + 1) (c :: cs) = scanF (m + 1) (c :: cs)
        simp only [scanF]
        cases htm : tryMatch (c :: cs) with
        | none =>
          have hn' : cs.length + 1 ≤ n + 1 := by simpa using hn
          have hm' : cs.length + 1 ≤ m + 1 := by simpa using hm
          have hcs : cs.length ≤ n := by omega
          have hcs' : cs.length ≤ m := by omega
          simp [ih m cs hcs hcs']
        | some utr =>
          obtain ⟨u, t, r⟩ := utr
          have hrl : r.length < cs.length + 1 := by simpa using tryMatch_length htm
          have hn' : cs.length + 1 ≤ n + 1 := by simpa using hn
          have hm' : cs.length + 1 ≤ m + 1 := by simpa using hm
          have h1 : r.length ≤ n := by omega
          have h2 : r.length ≤ m := by omega
          simp [ih m r h1 h2]

theorem scan_cons_none {c : Char} {cs : List Char} (h : tryMatch (c :: cs) = none) :
    scan (c :: cs) = scan cs := by
  show scanF (c :: cs).length (c :: cs) = scan cs
  simp only [List.length_cons, scanF, h]
  exact scanF_stable cs.length cs.length cs (Nat.le_refl _) (Nat.le_refl _)

theorem scan_cons_some {c : Char} {cs u t r : List Char}
    (h : tryMatch (c :: cs) = some (u, t, r)) :
    scan (c :: cs) = (u, t) :: scan r := by
  show scanF (c :: cs).length (c :: cs) = (u, t) :: scan r
  simp only [List.length_cons, scanF, h]
  have hrl : r.length < (c :: cs).length := tryMatch_length h
  have : r.length ≤ cs.length := by simp at hrl; omega
  rw [scanF_stable cs.length r.length r this (Nat.le_refl _)]
  rfl

theorem tryMatch_none_of_head {c : Char} (hc : c ≠ '<') (x : List Char) :
    tryMatch (c :: x) = none := by
  have hpre : lit.isPrefixOf (c :: x) = false := by
    apply isPre_false_of_not
    intro hp
    obtain ⟨tl, htl⟩ := hp
    have : '<' = c := by
      have h1 : lit = '<' :: "DT><A HREF=\"".data := rfl
      rw [h1, List.cons_append] at htl
      exact (List.cons.injEq _ _ _ _).mp htl |>.1
    exact hc this.symm
  unfold tryMatch
  simp [hpre]

theorem safeChunk_tail {c : Char} {l : List Char} (h : SafeChunk (c :: l)) : SafeChunk l := by
  intro t ht hne r
  exact h t (ht.trans (List.suffix_cons c l)) hne r

theorem safeChunk_append {a b : List Char} (ha : SafeChunk a) (hb : SafeChunk b) :
    SafeChunk (a ++ b) := by
  induction a with
  | nil => simpa using hb
  | cons c a ih =>
    intro t ht hne r
    rw [List.cons_append] at ht
    rcases List.suffix_cons_iff.mp ht with heq | htl
    · subst heq
      have := ha (c :: a) (List.suffix_refl _) (List.cons_ne_nil c a) (b ++ r)
      rwa [← List.append_assoc] at this
    · exact ih (safeChunk_tail ha) t htl hne r

theorem safeChunk_no_lt {l : List Char} (h : ∀ c ∈ l, c ≠ '<') : SafeChunk l := by
  intro t ht hne r
  cases t with
  | nil => exact absurd rfl hne
  | cons c tl =>
    have hc : c ∈ l := ht.subset (List.mem_cons_self c tl)
    rw [List.cons_append]
    exact tryMatch_none_of_head (h c hc) (tl ++ r)

theorem safeChunk_of_safeB {l : List Char} (h : safeB l = true) : SafeChunk l := by
  intro t ht hne r
  have hmem : t ∈ l.tails := (List.mem_tails t l).mpr ht
  have hprop := List.all_eq_true.mp h t hmem
  have hnotempty : t.isEmpty = false := by
    cases t with
    | nil => exact absurd rfl hne
    | cons c tl => rfl
  rw [hnotempty] at hprop
  simp only [Bool.false_or] at hprop
  by_cases hlen : 13 ≤ t.length
  · rw [if_pos hlen] at hprop
    have hfalse : lit.isPrefixOf t = false := by
      cases hb : lit.isPrefixOf t with
      | false => rfl
      | true => rw [hb] at hprop; exact absurd hprop (by simp)
    have hnot : ¬ lit.isPrefixOf (t ++ r) := by
      intro habs
      have hp : lit <+: t ++ r := (isPre_iff _ _).mp habs
      have hlit13 : lit.length = 13 := by decide
      have heq : lit = (t ++ r).take 13 := by
        have := List.prefix_iff_eq_take.mp hp
        rwa [hlit13] at this
      rw [List.take_append_of_le_length hlen] at heq
      have : lit <+: t := heq ▸ List.take_prefix 13 t
      rw [(isPre_iff lit t).mpr this] at hfalse
      exact absurd hfalse (by simp)
    have : lit.isPrefixOf (t ++ r) = false := by
      cases hb : lit.isPrefixOf (t ++ r) with
      | false => rfl
      | true => exact absurd hb hnot
    unfold tryMatch
    simp [this]
  · rw [if_neg hlen] at hprop
    have hfalse : t.isPrefixOf lit = false := by
      cases hb : t.isPrefixOf lit with
      | false => rfl
      | true => rw [hb] at hprop; exact absurd hprop (by simp)
    have hnot : ¬ lit.isPrefixOf (t ++ r) := by
      intro habs
      have hp : lit <+: t ++ r := (isPre_iff _ _).mp habs
      have hlit13 : lit.length = 13 := by decide
      have heq : lit = (t ++ r).take 13 := by
        have := List.prefix_iff_eq_take.mp hp
        rwa [hlit13] at this
      have htk : t = (t ++ r).take t.length := (List.take_left t r).symm
      have htle : t.length ≤ 13 := by omega
      have : t = lit.take t.length := by
        rw [heq, List.take_take, Nat.min_eq_left htle]
        exact htk
      have : t <+: lit := this ▸ List.take_prefix t.length lit
      rw [(isPre_iff t lit).mpr this] at hfalse
      exact absurd hfalse (by simp)
    have : lit.isPrefixOf (t ++ r) = false := by
      cases hb : lit.isPrefixOf (t ++ r) with
      | false => rfl
      | true => exact absurd hb hnot
    unfold tryMatch
    simp [this]

theorem scan_skip {l : List Char} (h : SafeChunk l) (r : List Char) :
    scan (l ++ r) = scan r := by
  induction l with
  | nil => rfl
  | cons c l ih =>
    rw [List.cons_append]
    rw [scan_cons_none (by
      have := h (c :: l) (List.suffix_refl _) (List.cons_ne_nil c l) r
      rwa [List.cons_append] at this)]
    exact ih (safeChunk_tail h)

/-! ## takeWhile / dropWhile over appends, and the escape functions -/

theorem takeWhile_app_all {p : Char → Bool} {a : List Char} (h : ∀ x ∈ a, p x = true)
    (b : List Char) : (a ++ b).takeWhile p = a ++ b.takeWhile p := by
  induction a with
  | nil => simp
  | cons c cs ih =>
    rw [List.cons_append, List.takeWhile_cons, h c (List.mem_cons_self c cs)]
    rw [ih (fun x hx => h x (List.mem_cons_of_mem c hx))]
    rfl

theorem dropWhile_app_all {p : Char → Bool} {a : List Char} (h : ∀ x ∈ a, p x = true)
    (b : List Char) : (a ++ b).dropWhile p = b.dropWhile p := by
  induction a with
  | nil => simp
  | cons c cs ih =>
    rw [List.cons_append, List.dropWhile_cons, h c (List.mem_cons_self c cs)]
    exact ih (fun x hx => h x (List.mem_cons_of_mem c hx))

theorem splitOnChar_app {c : Char} {a : List Char} (h : c ∉ a) (b : List Char) :
    splitOnChar c (a ++ c :: b) = some (a, b) := by
  have hall : ∀ x ∈ a, (x != c) = true := by
    intro x hx
    rw [bne_iff_ne]
    intro he
    exact h (he ▸ hx)
  unfold splitOnChar
  rw [dropWhile_app_all hall, takeWhile_app_all hall]
  rw [List.dropWhile_cons, List.takeWhile_cons]
  simp

theorem escQuot_no_quot (l : List Char) : '"' ∉ escQuot l := by
  induction l with
  | nil => simp [escQuot]
  | cons c cs ih =>
    intro habs
    rw [escQuot] at habs
    rcases List.mem_append.mp habs with h | h
    · by_cases hc : c = '"'
      · rw [if_pos hc] at h
        revert h
        decide
      · rw [if_neg hc] at h
        exact hc (List.mem_singleton.mp h).symm
    · exact ih h

theorem escLt_no_lt (l : List Char) : '<' ∉ escLt l := by
  induction l with
  | nil => simp [escLt]
  | cons c cs ih =>
    intro habs
    rw [escLt] at habs
    rcases List.mem_append.mp habs with h | h
    · by_cases hc : c = '<'
      · rw [if_pos hc] at h
        revert h
        decide
      · rw [if_neg hc] at h
        exact hc (List.mem_singleton.mp h).symm
    · exact ih h

theorem escGt_no_lt {l : List Char} (hl : '<' ∉ l) : '<' ∉ escGt l := by
  induction l with
  | nil => simp [escGt]
  | cons c cs ih =>
    intro habs
    rw [escGt] at habs
    rcases List.mem_append.mp habs with h | h
    · by_cases hc : c = '>'
      · rw [if_pos hc] at h
        revert h
        decide
      · rw [if_neg hc] at h
        have : c ∈ c :: cs := List.mem_cons_self c cs
        exact hl ((List.mem_singleton.mp h) ▸ this)
    · exact ih (fun hx => hl (List.mem_cons_of_mem c hx)) h

theorem escLtGt_no_lt (l : List Char) : '<' ∉ escGt (escLt l) :=
  escGt_no_lt (escLt_no_lt l)

theorem escQuot_id {l : List Char} (h : '"' ∉ l) : escQuot l = l := by
  induction l with
  | nil => rfl
  | cons c cs ih =>
    rw [escQuot, if_neg (by intro he; exact h (he ▸ List.mem_cons_self c cs))]
    rw [ih (fun hx => h (List.mem_cons_of_mem c hx))]
    rfl

theorem escLt_id {l : List Char} (h : '<' ∉ l) : escLt l = l := by
  induction l with
  | nil => rfl
  | cons c cs ih =>
    rw [escLt, if_neg (by intro he; exact h (he ▸ List.mem_cons_self c cs))]
    rw [ih (fun hx => h (List.mem_cons_of_mem c hx))]
    rfl

theorem escGt_id {l : List Char} (h : '>' ∉ l) : escGt l = l := by
  induction l with
  | nil => rfl
  | cons c cs ih =>
    rw [escGt, if_neg (by intro he; exact h (he ▸ List.mem_cons_self c cs))]
    rw [ih (fun hx => h (List.mem_cons_of_mem c hx))]
    rfl

theorem digitCh_ne_lt (d : Nat) : digitCh d ≠ '<' := by
  unfold digitCh
  split_ifs <;> decide

theorem natDigsGo_no_lt : ∀ (fuel n : Nat), ∀ c ∈ natDigsGo fuel n, c ≠ '<' := by
  intro fuel
  induction fuel with
  | zero => intro n c hc; exact absurd hc (by simp [natDigsGo])
  | succ fuel ih =>
    intro n c hc
    rw [natDigsGo] at hc
    by_cases hn : n < 10
    · rw [if_pos hn] at hc
      exact (List.mem_singleton.mp hc) ▸ digitCh_ne_lt n
    · rw [if_neg hn] at hc
      rcases List.mem_append.mp hc with h | h
      · exact ih (n / 10) c h
      · exact (List.mem_singleton.mp h) ▸ digitCh_ne_lt (n % 10)

theorem safeChunk_digits (n : Nat) : SafeChunk (natDigs n) :=
  safeChunk_no_lt (natDigsGo_no_lt (n + 1) n)

/-! ## Scanning the serialized output -/

theorem tryMatch_build {u mid t : List Char} (hu : '"' ∉ u) (hmid : '>' ∉ mid)
    (ht : '<' ∉ t) (r : List Char) :
    tryMatch (lit ++ (u ++ '"' :: (mid ++ '>' :: (t ++ (endA ++ r))))) = some (u, t, r) := by
  unfold tryMatch
  rw [if_pos (by rw [isPre_app_self])]
  rw [List.drop_left]
  rw [splitOnChar_app hu]
  simp only [Option.some_bind]
  rw [splitOnChar_app hmid]
  simp only [Option.some_bind]
  have hall : ∀ x ∈ t, (x != '<') = true := by
    intro x hx
    rw [bne_iff_ne]
    intro he
    exact ht (he ▸ hx)
  have htk : (t ++ (endA ++ r)).takeWhile (· != '<') = t := by
    rw [takeWhile_app_all hall]
    have : endA ++ r = '<' :: ("/A>".data ++ r) := rfl
    rw [this, List.takeWhile_cons]
    simp
  rw [htk]
  rw [List.drop_left]
  rw [if_pos (by rw [isPre_app_self])]
  rw [List.drop_left]

theorem scan_build {u mid t : List Char} (hu : '"' ∉ u) (hmid : '>' ∉ mid)
    (ht : '<' ∉ t) (r : List Char) :
    scan (lit ++ (u ++ '"' :: (mid ++ '>' :: (t ++ (endA ++ r))))) = (u, t) :: scan r := by
  have hm := tryMatch_build hu hmid ht r
  have hsh : lit ++ (u ++ '"' :: (mid ++ '>' :: (t ++ (endA ++ r))))
      = '<' :: ("DT><A HREF=\"".data ++ (u ++ '"' :: (mid ++ '>' :: (t ++ (endA ++ r))))) := rfl
  rw [hsh] at hm ⊢
  exact scan_cons_some hm

theorem scan_entry {u t : List Char} (hu : '"' ∉ u) (ht : '<' ∉ t) (r : List Char) :
    scan (lit ++ (u ++ '"' :: '>' :: (t ++ (endA ++ r)))) = (u, t) :: scan r := by
  have := @scan_build u [] t hu (by simp) ht r
  simpa using this

theorem safeChunk_spaces8 : SafeChunk "        ".data :=
  safeChunk_of_safeB (by decide)

theorem safeChunk_nl : SafeChunk ['\n'] :=
  safeChunk_of_safeB (by decide)

theorem scan_nl (r : List Char) : scan ('\n' :: r) = scan r := by
  have : '\n' :: r = ['\n'] ++ r := rfl
  rw [this, scan_skip safeChunk_nl]

theorem scan_bmLine8 (b : Bm) (r : List Char) :
    scan (bmLine8 b ++ r)
      = (escQuot b.url.data, escGt (escLt b.title.data)) :: scan r := by
  have h1 : bmLine8 b ++ r =
      "        ".data ++ (lit ++ (escQuot b.url.data ++ '"' :: '>' ::
        (escGt (escLt b.title.data) ++ (endA ++ ('\n' :: r))))) := by
    simp [bmLine8, List.append_assoc]
  rw [h1, scan_skip safeChunk_spaces8]
  rw [scan_entry (escQuot_no_quot _) (escLtGt_no_lt _)]
  rw [scan_nl]

theorem scan_bmList : ∀ (bs : List Bm) (r : List Char),
    scan (bs.flatMap bmLine8 ++ r)
      = bs.map (fun b => (escQuot b.url.data, escGt (escLt b.title.data))) ++ scan r := by
  intro bs
  induction bs with
  | nil => intro r; simp
  | cons b rest ih =>
    intro r
    rw [List.flatMap_cons, List.append_assoc, scan_bmLine8, ih]
    rfl

theorem safeChunk_catLine {c : String} (hc : '<' ∉ c.data) (n : Nat) :
    SafeChunk (catLine c n) := by
  unfold catLine
  have hcD : SafeChunk c.data := safeChunk_no_lt (fun x hx he => hc (he ▸ hx))
  exact safeChunk_append
    (safeChunk_append
      (safeChunk_append
        (safeChunk_append (safeChunk_of_safeB (by decide)) hcD)
        (safeChunk_of_safeB (by decide)))
      (safeChunk_digits n))
    (safeChunk_of_safeB (by decide))

theorem safeChunk_catClose : SafeChunk "    </DL><p>\n".data :=
  safeChunk_of_safeB (by decide)

theorem scan_catBlock {c : String} (hc : '<' ∉ c.data) (bs : List Bm) (r : List Char) :
    scan (catBlock (c, bs) ++ r)
      = bs.map (fun b => (escQuot b.url.data, escGt (escLt b.title.data))) ++ scan r := by
  unfold catBlock
  rw [List.append_assoc, List.append_assoc]
  rw [scan_skip (safeChunk_catLine hc bs.length)]
  rw [scan_bmList]
  rw [scan_skip safeChunk_catClose]

theorem scan_cats : ∀ (cats : List (String × List Bm)),
    (∀ p ∈ cats, '<' ∉ p.1.data) → ∀ (r : List Char),
    scan (cats.flatMap catBlock ++ r)
      = cats.flatMap
          (fun p => p.2.map (fun b => (escQuot b.url.data, escGt (escLt b.title.data))))
        ++ scan r := by
  intro cats
  induction cats with
  | nil => intro _ r; simp
  | cons p rest ih =>
    intro h r
    rw [List.flatMap_cons, List.append_assoc]
    have hp : '<' ∉ p.1.data := (h p (List.mem_cons_self p rest))
    have : catBlock p = catBlock (p.1, p.2) := by rfl
    rw [this, scan_catBlock hp, ih (fun q hq => h q (List.mem_cons_of_mem p hq))]
    rw [List.flatMap_cons, List.append_assoc]

theorem safeChunk_catHeader : SafeChunk catHeader.data :=
  safeChunk_of_safeB (by decide)

theorem safeChunk_footer : SafeChunk "</DL><p>\n".data :=
  safeChunk_of_safeB (by decide)

theorem scan_save (cats : List (String × List Bm)) (h : ∀ p ∈ cats, '<' ∉ p.1.data) :
    scan (save_categorized_bookmarks cats).data
      = cats.flatMap
          (fun p => p.2.map (fun b => (escQuot b.url.data, escGt (escLt b.title.data)))) := by
  have hd : (save_categorized_bookmarks cats).data
      = catHeader.data ++ (cats.flatMap catBlock ++ "</DL><p>\n".data) := by
    simp [save_categorized_bookmarks, List.append_assoc]
  rw [hd, scan_skip safeChunk_catHeader, scan_cats cats h]
  have hfoot : scan "</DL><p>\n".data = [] := by
    have h0 : "</DL><p>\n".data = "</DL><p>\n".data ++ [] := by simp
    rw [h0, scan_skip safeChunk_footer]
    rfl
  rw [hfoot, List.append_nil]

/-! ## Scanning the C5 documents -/

theorem scan_wellLine {u t : String} (hu : '"' ∉ u.data) (ht : '<' ∉ t.data) (r : List Char) :
    scan (wellLineD (u, t) ++ r) = (u.data, t.data) :: scan r := by
  have h1 : wellLineD (u, t) ++ r
      = lit ++ (u.data ++ '"' :: '>' :: (t.data ++ (endA ++ ('\n' :: r)))) := by
    simp [wellLineD, List.append_assoc]
  rw [h1, scan_entry hu ht, scan_nl]

theorem scan_wellDoc : ∀ (bms : List (String × String)),
    (∀ p ∈ bms, '"' ∉ p.1.data ∧ '<' ∉ p.2.data) → ∀ (r : List Char),
    scan (wellDoc bms ++ r) = bms.map (fun p => (p.1.data, p.2.data)) ++ scan r := by
  intro bms
  induction bms with
  | nil => intro _ r; simp [wellDoc]
  | cons p rest ih =>
    intro h r
    have hp := h p (List.mem_cons_self p rest)
    have hline : wellLineD p = wellLineD (p.1, p.2) := rfl
    rw [wellDoc, List.flatMap_cons, List.append_assoc, hline, scan_wellLine hp.1 hp.2]
    rw [show rest.flatMap wellLineD = wellDoc rest from rfl]
    rw [ih (fun q hq => h q (List.mem_cons_of_mem p hq)) r]
    rfl

theorem lit_decomp : lit = lit12 ++ ['"'] := by decide

theorem scan_malEntry {um u₂ t₂ : String} (hum : '"' ∉ um.data) (hu₂ : '>' ∉ u₂.data)
    (ht₂ : '<' ∉ t₂.data) (r : List Char) :
    scan (malTagD um ++ (wellLineD (u₂, t₂) ++ r))
      = (um.data ++ '\n' :: lit12, t₂.data) :: scan r := by
  have hA : '"' ∉ um.data ++ '\n' :: lit12 := by
    intro h
    rcases List.mem_append.mp h with h | h
    · exact hum h
    · exact absurd h (by decide)
  have hmid : '>' ∉ u₂.data ++ ['"'] := by
    intro h
    rcases List.mem_append.mp h with h | h
    · exact hu₂ h
    · exact absurd h (by decide)
  have hsh : malTagD um ++ (wellLineD (u₂, t₂) ++ r)
      = lit ++ ((um.data ++ '\n' :: lit12) ++ '"' ::
          ((u₂.data ++ ['"']) ++ '>' :: (t₂.data ++ (endA ++ ('\n' :: r))))) := by
    rw [malTagD, wellLineD]
    rw [show lit ++ u₂.data ++ '"' :: '>' :: (t₂.data ++ endA ++ ['\n'])
        = (lit12 ++ ['"']) ++ u₂.data ++ '"' :: '>' :: (t₂.data ++ endA ++ ['\n'])
      from by rw [← lit_decomp]]
    simp [List.append_assoc]
  rw [hsh, scan_build hA hmid ht₂, scan_nl]

/-! ## is_valid_url versus the claim-C10 predicate, and the cleaning loop -/

theorem is_valid_eq_claimTrim (u : String) :
    (is_valid_url u).1 = claimValidUrl (trimS u) := by
  unfold is_valid_url
  split_ifs with h0 h1 h2 h3 h4 h5
  · rw [h0]; decide
  · have h1' : startsWithS (trimS u) "chrome://" = true
        ∨ startsWithS (trimS u) "chrome-extension://" = true := by simpa using h1
    rcases h1' with hc | hc <;> simp [claimValidUrl, hc]
  · simp [claimValidUrl, h2]
  · simp [claimValidUrl, h3]
  · have h4' : containsS (trimS u) "localhost" = true
        ∨ containsS (trimS u) "127.0.0.1" = true := by simpa using h4
    rcases h4' with hc | hc <;> simp [claimValidUrl, hc]
  · have h5' : startsWithS (trimS u) "http" = false := by
      revert h5
      cases startsWithS (trimS u) "http" <;> simp
    simp [claimValidUrl, h5']
  · simp only [Bool.or_eq_true, not_or] at h1 h4
    have h5' : startsWithS (trimS u) "http" = true := by
      revert h5
      cases startsWithS (trimS u) "http" <;> simp
    have e1 : startsWithS (trimS u) "chrome://" = false := by
      revert h1; cases startsWithS (trimS u) "chrome://" <;> simp
    have e2 : startsWithS (trimS u) "chrome-extension://" = false := by
      revert h1; cases startsWithS (trimS u) "chrome-extension://" <;> simp
    have e3 : startsWithS (trimS u) "javascript:" = false := by
      revert h2; cases startsWithS (trimS u) "javascript:" <;> simp
    have e4 : startsWithS (trimS u) "file://" = false := by
      revert h3; cases startsWithS (trimS u) "file://" <;> simp
    have e5 : containsS (trimS u) "localhost" = false := by
      revert h4; cases containsS (trimS u) "localhost" <;> simp
    have e6 : containsS (trimS u) "127.0.0.1" = false := by
      revert h4; cases containsS (trimS u) "127.0.0.1" <;> simp
    simp [claimValidUrl, h5', e1, e2, e3, e4, e5, e6]

theorem clean_go_eq_claim : ∀ (l : List OBm) (s₁ s₂ : List String),
    (∀ u, u ∈ s₁ ↔ (u ∈ s₂ ∧ (is_valid_url u).1 = true)) →
    clean_go s₁ l = claimClean_go (fun u => claimValidUrl (trimS u)) s₂ l := by
  intro l
  induction l with
  | nil => intro s₁ s₂ _; rfl
  | cons bm rest ih =>
    intro s₁ s₂ hrel
    rw [clean_go, claimClean_go]
    by_cases hmem2 : bm.url ∈ s₂
    · rw [if_pos hmem2]
      by_cases hval : (is_valid_url bm.url).1 = true
      · have hmem1 : bm.url ∈ s₁ := (hrel bm.url).mpr ⟨hmem2, hval⟩
        rw [if_pos hmem1]
        refine ih s₁ (bm.url :: s₂) ?_
        intro v
        constructor
        · intro hv
          obtain ⟨hv2, hvv⟩ := (hrel v).mp hv
          exact ⟨List.mem_cons_of_mem _ hv2, hvv⟩
        · rintro ⟨hv2, hvv⟩
          rcases List.mem_cons.mp hv2 with he | hv2'
          · exact he ▸ hmem1
          · exact (hrel v).mpr ⟨hv2', hvv⟩
      · have hmem1 : bm.url ∉ s₁ := fun h => hval ((hrel bm.url).mp h).2
        rw [if_neg hmem1]
        have hf : (is_valid_url bm.url).1 = false := by
          revert hval; cases (is_valid_url bm.url).1 <;> simp
        rw [if_pos (by rw [hf]; rfl)]
        refine ih s₁ (bm.url :: s₂) ?_
        intro v
        constructor
        · intro hv
          obtain ⟨hv2, hvv⟩ := (hrel v).mp hv
          exact ⟨List.mem_cons_of_mem _ hv2, hvv⟩
        · rintro ⟨hv2, hvv⟩
          rcases List.mem_cons.mp hv2 with he | hv2'
          · subst he; exact absurd hvv (by rw [hf]; simp)
          · exact (hrel v).mpr ⟨hv2', hvv⟩
    · have hmem1 : bm.url ∉ s₁ := fun h => hmem2 ((hrel bm.url).mp h).1
      rw [if_neg hmem1, if_neg hmem2]
      by_cases hval : (is_valid_url bm.url).1 = true
      · rw [if_neg (by rw [hval]; simp)]
        rw [if_pos (by rw [← is_valid_eq_claimTrim]; exact hval)]
        refine congrArg (bm :: ·) (ih (bm.url :: s₁) (bm.url :: s₂) ?_)
        intro v
        constructor
        · intro hv
          rcases List.mem_cons.mp hv with he | hv1
          · exact ⟨he ▸ List.mem_cons_self _ _, he ▸ hval⟩
          · obtain ⟨hv2, hvv⟩ := (hrel v).mp hv1
            exact ⟨List.mem_cons_of_mem _ hv2, hvv⟩
        · rintro ⟨hv2, hvv⟩
          rcases List.mem_cons.mp hv2 with he | hv2'
          · exact he ▸ List.mem_cons_self _ _
          · exact List.mem_cons_of_mem _ ((hrel v).mpr ⟨hv2', hvv⟩)
      · have hf : (is_valid_url bm.url).1 = false := by
          revert hval; cases (is_valid_url bm.url).1 <;> simp
        rw [if_pos (by rw [hf]; rfl)]
        rw [if_neg (by rw [← is_valid_eq_claimTrim, hf]; simp)]
        refine ih s₁ (bm.url :: s₂) ?_
        intro v
        constructor
        · intro hv
          obtain ⟨hv2, hvv⟩ := (hrel v).mp hv
          exact ⟨List.mem_cons_of_mem _ hv2, hvv⟩
        · rintro ⟨hv2, hvv⟩
          rcases List.mem_cons.mp hv2 with he | hv2'
          · subst he; exact absurd hvv (by rw [hf]; simp)
          · exact (hrel v).mpr ⟨hv2', hvv⟩

theorem clean_go_sublist : ∀ (l : List OBm) (s : List String),
    List.Sublist (clean_go s l) l := by
  intro l
  induction l with
  | nil => intro s; rfl
  | cons bm rest ih =>
    intro s
    rw [clean_go]
    by_cases h1 : bm.url ∈ s
    · rw [if_pos h1]
      exact List.Sublist.cons bm (ih s)
    · rw [if_neg h1]
      by_cases h2 : (!(is_valid_url bm.url).1) = true
      · rw [if_pos h2]
        exact List.Sublist.cons bm (ih s)
      · rw [if_neg h2]
        exact List.Sublist.cons₂ bm (ih (bm.url :: s))

/-! ## Running the organize_bookmarks parser -/

theorem oRunFrom_append (σ : OState) (a b : List Ev) :
    oRunFrom σ (a ++ b) = oRunFrom (oRunFrom σ a) b :=
  List.foldl_append oStep σ a b

theorem oRun_bm_empty (p : String × String) (σ : OState) (he : trimS p.2 = "") :
    oRunFrom σ (bmEvs p)
      = { σ with current_bookmark := some ⟨p.1, "", joinWith "/" σ.folder_stack⟩ } := by
  simp [bmEvs, oRunFrom, oStep, o_handle_starttag, o_handle_endtag, o_handle_data,
    attrGet, he]

theorem oRun_bm_filled (p : String × String) (σ : OState) (hh3 : σ.in_h3 = false)
    (he : trimS p.2 ≠ "") :
    oRunFrom σ (bmEvs p)
      = { σ with current_bookmark := none,
                 bookmarks := σ.bookmarks ++ [⟨p.1, trimS p.2, joinWith "/" σ.folder_stack⟩] } := by
  simp [bmEvs, oRunFrom, oStep, o_handle_starttag, o_handle_endtag, o_handle_data,
    attrGet, hh3, he]

theorem oRun_bmList : ∀ (bms : List (String × String)) (σ : OState), σ.in_h3 = false →
    (oRunFrom σ (bms.flatMap bmEvs)).bookmarks
        = σ.bookmarks ++ bms.filterMap (fun p =>
            if trimS p.2 = "" then none
            else some ⟨p.1, trimS p.2, joinWith "/" σ.folder_stack⟩)
      ∧ (oRunFrom σ (bms.flatMap bmEvs)).folder_stack = σ.folder_stack
      ∧ (oRunFrom σ (bms.flatMap bmEvs)).in_h3 = false := by
  intro bms
  induction bms with
  | nil => intro σ h; exact ⟨by simp [oRunFrom], rfl, h⟩
  | cons p rest ih =>
    intro σ h
    rw [List.flatMap_cons, oRunFrom_append]
    by_cases he : trimS p.2 = ""
    · rw [oRun_bm_empty p σ he]
      obtain ⟨h1, h2, h3⟩ := ih { σ with current_bookmark := some ⟨p.1, "", joinWith "/" σ.folder_stack⟩ } h
      refine ⟨?_, h2, h3⟩
      rw [h1, List.filterMap_cons, if_pos he]
    · rw [oRun_bm_filled p σ h he]
      obtain ⟨h1, h2, h3⟩ := ih { σ with current_bookmark := none, bookmarks := σ.bookmarks ++ [⟨p.1, trimS p.2, joinWith "/" σ.folder_stack⟩] } h
      refine ⟨?_, h2, h3⟩
      rw [h1, List.filterMap_cons, if_neg he, List.append_assoc]
      rfl

/-! ## Running the hierarchical parser -/

theorem str_nil_append (s : String) : "" ++ s = s := by
  cases s
  rfl

theorem hRunFrom_append (σ : HState) (a b : List Ev) :
    hRunFrom σ (a ++ b) = hRunFrom (hRunFrom σ a) b :=
  List.foldl_append hStep σ a b

theorem hRun_bmEv (p : String × String) (pend : Option HFrame) (b3 ba : Bool) (txt : String)
    (attrs : List (String × String)) (top : HFrame) (rest : List HFrame) :
    hRunFrom ⟨top :: rest, pend, b3, ba, txt, attrs⟩ (bmEvs p)
      = ⟨{ top with done := top.done
              ++ [HNode.bookmark (trimS p.2) p.1 (rest.length : Int)] } :: rest,
          pend, b3, false, p.2, [("href", p.1)]⟩ := by
  simp [bmEvs, hRunFrom, hStep, h_handle_starttag, h_handle_endtag, h_handle_data,
    attrGet, str_nil_append]

theorem hRun_bmList : ∀ (bms : List (String × String)) (pend : Option HFrame)
    (b3 ba : Bool) (txt : String) (attrs : List (String × String))
    (top : HFrame) (rest : List HFrame),
    ∃ ba' txt' attrs',
    hRunFrom ⟨top :: rest, pend, b3, ba, txt, attrs⟩ (bms.flatMap bmEvs)
      = ⟨{ top with done := top.done
              ++ bms.map (fun p => HNode.bookmark (trimS p.2) p.1 (rest.length : Int)) } :: rest,
          pend, b3, ba', txt', attrs'⟩ := by
  intro bms
  induction bms with
  | nil =>
    intro pend b3 ba txt attrs top rest
    refine ⟨ba, txt, attrs, ?_⟩
    simp [hRunFrom]
  | cons p ps ih =>
    intro pend b3 ba txt attrs top rest
    rw [List.flatMap_cons, hRunFrom_append, hRun_bmEv]
    obtain ⟨ba', txt', attrs', hrec⟩ := ih pend b3 false p.2 [("href", p.1)]
      { top with done := top.done ++ [HNode.bookmark (trimS p.2) p.1 (rest.length : Int)] } rest
    refine ⟨ba', txt', attrs', ?_⟩
    rw [hrec]
    simp [List.append_assoc]

theorem getLast?_cons_ne {α : Type} (a : α) {l : List α} (h : l ≠ []) :
    (a :: l).getLast? = l.getLast? := by
  cases l with
  | nil => exact absurd rfl h
  | cons b m => exact List.getLast?_cons_cons

theorem exists_getLast? {α : Type} : ∀ (l : List α), l ≠ [] → ∃ x, l.getLast? = some x := by
  intro l
  induction l with
  | nil => intro h; exact absurd rfl h
  | cons a m ih =>
    intro _
    cases hm : m with
    | nil => exact ⟨a, rfl⟩
    | cons b k =>
      obtain ⟨x, hx⟩ := ih (by rw [hm]; simp)
      rw [hm] at hx
      exact ⟨x, by rw [List.getLast?_cons_cons]; exact hx⟩

theorem hStep_pathOk (σ : HState) (ev : Ev) (h : pathOk σ) : pathOk (hStep σ ev) := by
  obtain ⟨path, pend, b3, ba, txt, cattrs⟩ := σ
  obtain ⟨hne, hlast⟩ := h
  dsimp only at hne hlast
  cases ev with
  | startTag t attrs =>
    dsimp only [hStep, h_handle_starttag]
    split_ifs with h1 h2 h3
    · exact ⟨hne, hlast⟩
    · cases pend with
      | none => exact ⟨hne, hlast⟩
      | some fr =>
        dsimp only
        refine ⟨by simp, ?_⟩
        intro g hg
        rw [getLast?_cons_ne fr hne] at hg
        exact hlast g hg
    · exact ⟨hne, hlast⟩
    · exact ⟨hne, hlast⟩
  | text s =>
    dsimp only [hStep, h_handle_data]
    split_ifs
    · exact ⟨hne, hlast⟩
    · exact ⟨hne, hlast⟩
  | endTag t =>
    dsimp only [hStep, h_handle_endtag]
    split_ifs with h1 h2 h3
    · exact ⟨hne, hlast⟩
    · cases path with
      | nil => exact absurd rfl hne
      | cons top rest =>
        dsimp only
        cases rest with
        | nil =>
          refine ⟨by simp, ?_⟩
          intro g hg
          have htop := hlast top rfl
          simp only [List.getLast?_singleton, Option.mem_def, Option.some.injEq] at hg
          subst hg
          exact ⟨htop.1, htop.2.1, htop.2.2⟩
        | cons f2 frest =>
          refine ⟨by simp, ?_⟩
          intro g hg
          rw [List.getLast?_cons_cons] at hg
          exact hlast g (by rw [List.getLast?_cons_cons]; exact hg)
    · cases path with
      | nil => exact ⟨hne, hlast⟩
      | cons top rest =>
        cases rest with
        | nil => exact ⟨hne, hlast⟩
        | cons parent frest =>
          dsimp only
          cases frest with
          | nil =>
            refine ⟨by simp, ?_⟩
            intro g hg
            have hpar := hlast parent (by rw [List.getLast?_cons_cons]; rfl)
            simp only [List.getLast?_singleton, Option.mem_def, Option.some.injEq] at hg
            subst hg
            exact ⟨hpar.1, hpar.2.1, hpar.2.2⟩
          | cons f3 f3rest =>
            refine ⟨by simp, ?_⟩
            intro g hg
            rw [List.getLast?_cons_cons] at hg
            refine hlast g ?_
            rw [List.getLast?_cons_cons, List.getLast?_cons_cons]
            exact hg
    · exact ⟨hne, hlast⟩

theorem hRunFrom_pathOk : ∀ (evs : List Ev) (σ : HState), pathOk σ → pathOk (hRunFrom σ evs) := by
  intro evs
  induction evs with
  | nil => intro σ h; exact h
  | cons ev rest ih =>
    intro σ h
    exact ih (hStep σ ev) (hStep_pathOk σ ev h)

theorem hInit_pathOk : pathOk hInit := by
  constructor
  · simp [hInit]
  · intro fr hfr
    have : fr = hInitFrame := by
      simpa [hInit, Option.mem_def] using hfr.symm
    subst this
    exact ⟨rfl, rfl, rfl⟩

theorem hRun_pathOk (evs : List Ev) : pathOk (hRun evs) :=
  hRunFrom_pathOk evs hInit hInit_pathOk

theorem collapseGo_fields : ∀ (rest : List HFrame) (top fr : HFrame),
    (top :: rest).getLast? = some fr →
    (collapseGo top rest).name = fr.name ∧ (collapseGo top rest).attrs = fr.attrs
      ∧ (collapseGo top rest).level = fr.level := by
  intro rest
  induction rest with
  | nil =>
    intro top fr h
    have : top = fr := by simpa using h
    subst this
    exact ⟨rfl, rfl, rfl⟩
  | cons parent rest' ih =>
    intro top fr h
    rw [show collapseGo top (parent :: rest') = collapseGo (attachFrame parent top) rest'
      from rfl]
    cases rest' with
    | nil =>
      have hfr : parent = fr := by
        rw [List.getLast?_cons_cons] at h
        simpa using h
      subst hfr
      exact ⟨rfl, rfl, rfl⟩
    | cons f2 frest =>
      refine ih (attachFrame parent top) fr ?_
      rw [List.getLast?_cons_cons]
      rw [List.getLast?_cons_cons, List.getLast?_cons_cons] at h
      exact h

theorem hTree_root (σ : HState) (h : pathOk σ) :
    ∃ cs, hTree σ = HNode.folder (some "root") [] (-1) none cs := by
  obtain ⟨hne, hlast⟩ := h
  cases hpath : σ.path with
  | nil => exact absurd hpath hne
  | cons top rest =>
    obtain ⟨fr, hfr⟩ := exists_getLast? (top :: rest) (by simp)
    have hfields := hlast fr (by rw [hpath]; exact hfr)
    obtain ⟨hn, ha, hl⟩ := collapseGo_fields rest top fr hfr
    refine ⟨(collapseGo top rest).done, ?_⟩
    rw [hTree, hpath]
    dsimp only [frameNode]
    rw [hn, ha, hl, hfields.1, hfields.2.1, hfields.2.2]

/-! ## analyze_folder_names never changes name, url, attributes or children -/

mutual

theorem forgetNode_analyzeNode : ∀ (t : HNode), forgetNode (analyzeNode t) = forgetNode t
  | .bookmark n u l => rfl
  | .folder n a l s cs => by
    simp only [analyzeNode, forgetNode]
    rw [forgetList_analyzeList cs]

theorem forgetList_analyzeList : ∀ (l : List HNode), forgetList (analyzeList l) = forgetList l
  | [] => rfl
  | c :: cs => by
    simp only [analyzeList, forgetList]
    rw [forgetNode_analyzeNode c, forgetList_analyzeList cs]

end

/-! ## List congruence helpers -/

theorem flatMapCongr {α β : Type} {l : List α} {f g : α → List β}
    (h : ∀ a ∈ l, f a = g a) : l.flatMap f = l.flatMap g := by
  induction l with
  | nil => rfl
  | cons a rest ih =>
    rw [List.flatMap_cons, List.flatMap_cons, h a (List.mem_cons_self a rest)]
    rw [ih (fun x hx => h x (List.mem_cons_of_mem a hx))]

theorem mapCongr {α β : Type} {l : List α} {f g : α → β}
    (h : ∀ a ∈ l, f a = g a) : l.map f = l.map g := by
  induction l with
  | nil => rfl
  | cons a rest ih =>
    rw [List.map_cons, List.map_cons, h a (List.mem_cons_self a rest)]
    rw [ih (fun x hx => h x (List.mem_cons_of_mem a hx))]

/-! # Claim theorems -/

/-- Claim C1, counterexample: the round-trip is broken as stated.  Take the
tree with the single folder "X" holding the single bookmark (url "u", title
"a<b") — every folder has a descendant bookmark.  Serializing with
save_categorized_bookmarks escapes the title to a&lt;b, and
parse_bookmarks_simple performs no entity unescaping, so the parsed record
carries the altered title "a&lt;b" (and no folder path at all): the Flat
Extraction View multiset of the re-parsed output differs from T's. -/
theorem C1_roundtrip_cex :
    parse_bookmarks_simple (save_categorized_bookmarks [("X", [⟨"u", "a<b"⟩])])
        = [("u", "a&lt;b")]
      ∧ parse_bookmarks_simple (save_categorized_bookmarks [("X", [⟨"u", "a<b"⟩])])
        ≠ [("u", "a<b")] := by
  decide

/-- Claim C1, amended: parse_bookmarks_simple applied to the output of
save_categorized_bookmarks returns exactly the serialized (url, title) pairs in
order — but only because the reader does not unescape what the writer escaped:
the round-trip preserves records exactly when no url contains a double quote,
no title contains the angle brackets the writer would escape, and every title
is whitespace-trim-invariant (the reader strips titles); folder paths are not
recovered at all by this reader. -/
theorem C1_roundtrip_amended (cats : List (String × List Bm))
    (hcat : ∀ p ∈ cats, '<' ∉ p.1.data)
    (hbm : ∀ p ∈ cats, ∀ b ∈ p.2,
      '"' ∉ b.url.data ∧ '<' ∉ b.title.data ∧ '>' ∉ b.title.data ∧ trimS b.title = b.title) :
    parse_bookmarks_simple (save_categorized_bookmarks cats)
      = cats.flatMap (fun p => p.2.map (fun b => (b.url, b.title))) := by
  unfold parse_bookmarks_simple
  rw [scan_save cats hcat, List.map_flatMap]
  refine flatMapCongr ?_
  intro p hp
  rw [List.map_map]
  refine mapCongr ?_
  intro b hb
  obtain ⟨hq, hlt, hgt, htr⟩ := hbm p hp b hb
  show (String.mk (escQuot b.url.data), String.mk (trimL (escGt (escLt b.title.data))))
      = (b.url, b.title)
  rw [escQuot_id hq, escLt_id hlt, escGt_id hgt]
  rw [show String.mk b.url.data = b.url from rfl]
  rw [show String.mk (trimL b.title.data) = trimS b.title from rfl, htr]

/-- Claim C1, witness for the amended theorem at a concrete clean input. -/
theorem C1_roundtrip_amended_witness :
    parse_bookmarks_simple (save_categorized_bookmarks [("Cat", [⟨"http://a", "T"⟩])])
      = [("http://a", "T")] :=
  C1_roundtrip_amended [("Cat", [⟨"http://a", "T"⟩])] (by decide) (by decide)

/-- Claim C2, counterexample: in the input
`<H3>Orphan</H3><DT><A HREF="http://x">X</A><DL></DL>` the H3 is not followed
by a DL before the next sibling element (the bookmark X intervenes), so per
the claim "Orphan" must not appear as a folder; but the parser keeps the
pending heading across the sibling bookmark, and the later DL attaches it:
"Orphan" does appear as a folder in the resulting tree (X itself correctly
attaches to the enclosing folder, here the root). -/
theorem C2_dangling_cex :
    hasFolderNamed "Orphan"
        (parseHier (orphanEvs ++ [Ev.startTag "dl" [], Ev.endTag "dl"])) = true
      ∧ parseHier (orphanEvs ++ [Ev.startTag "dl" [], Ev.endTag "dl"])
        = HNode.folder (some "root") [] (-1) none
            [HNode.bookmark "X" "http://x" 0, HNode.folder (some "Orphan") [] 0 none []] :=
  ⟨by decide, rfl⟩

/-- Claim C2, amended: a dangling H3 heading is discarded only when no DL
start arrives while it is pending; an intervening sibling bookmark does not
clear the pending heading.  In particular, for the spec's example followed by
any further sibling bookmarks and the close of the enclosing folder, the
heading "Orphan" never becomes a folder and every bookmark (X first) attaches
to the current enclosing folder in order. -/
theorem C2_dangling_amended (f : String) (bms : List (String × String)) :
    parseHier (openFolder f ++ (orphanEvs ++ (bms.flatMap bmEvs ++ [Ev.endTag "dl"])))
      = HNode.folder (some "root") [] (-1) none
          [HNode.folder (some (trimS f)) [] 0 none
            (HNode.bookmark "X" "http://x" 1
              :: bms.map (fun p => HNode.bookmark (trimS p.2) p.1 1))] := by
  have hsplit : openFolder f ++ (orphanEvs ++ (bms.flatMap bmEvs ++ [Ev.endTag "dl"]))
      = ((((openFolder f ++ [Ev.startTag "h3" [], Ev.text "Orphan", Ev.endTag "h3"])
          ++ bmEvs ("http://x", "X")) ++ bms.flatMap bmEvs) ++ [Ev.endTag "dl"]) := by
    simp [openFolder, orphanEvs, bmEvs]
  rw [parseHier, hRun, hsplit, hRunFrom_append, hRunFrom_append, hRunFrom_append]
  have h1 : hRunFrom hInit (openFolder f ++ [Ev.startTag "h3" [], Ev.text "Orphan", Ev.endTag "h3"])
      = ⟨[⟨some (trimS f), [], 0, []⟩, hInitFrame],
          some ⟨some "Orphan", [], 1, []⟩, false, false, "Orphan", []⟩ := by
    simp [openFolder, hInit, hInitFrame, hRunFrom, hStep, h_handle_starttag,
      h_handle_endtag, h_handle_data, str_nil_append,
      show trimS "Orphan" = "Orphan" from by decide]
  rw [h1, hRun_bmEv]
  obtain ⟨ba', txt', attrs', hlist⟩ := hRun_bmList bms
    (some ⟨some "Orphan", [], 1, []⟩) false false "X" [("href", "http://x")]
    ⟨some (trimS f), [], 0, [HNode.bookmark (trimS "X") "http://x" ((1 : Nat) : Int)]⟩
    [hInitFrame]
  rw [show ({ (⟨some (trimS f), [], 0, []⟩ : HFrame) with done :=
      (⟨some (trimS f), [], 0, []⟩ : HFrame).done
        ++ [HNode.bookmark (trimS "X") "http://x" (([hInitFrame].length : Nat) : Int)] } : HFrame)
      = (⟨some (trimS f), [], 0, [HNode.bookmark (trimS "X") "http://x" ((1 : Nat) : Int)]⟩ : HFrame)
    from rfl]
  rw [hlist]
  simp [hRunFrom, hStep, h_handle_endtag, hTree, frameNode, attachFrame, collapseGo,
    hInitFrame, show trimS "X" = "X" from by decide]

/-- Claim C3, counterexample: the serializer checks only the direct children
list.  The folder "F" whose only child is the bookmark-free folder "G" has
zero descendant bookmarks, yet write_node emits F's heading and an empty DL
region for it instead of omitting it. -/
theorem C3_empty_folder_cex :
    write_node (MNode.folder "F" [] [MNode.folder "G" [] []]) "    "
        = ["    <DT><H3 ADD_DATE=\"1704067200\" LAST_MODIFIED=\"1735606800\">F</H3>",
           "    <DL><p>", "    </DL><p>"]
      ∧ count_items [MNode.folder "F" [] [MNode.folder "G" [] []]] = 0 := by
  decide

/-- Claim C3, amended: write_node omits a folder exactly when its direct
children list is empty; a folder whose children are all bookmark-free folders
is still emitted (as a bookmark-free region), so zero-descendant-bookmark
omission holds only when the caller has pruned such folders beforehand. -/
theorem C3_empty_folder_amended (name : String) (attrs : List (String × String))
    (cs : List MNode) (ind : String) :
    write_node (MNode.folder name attrs cs) ind = [] ↔ cs = [] := by
  cases cs with
  | nil => simp [write_node]
  | cons c rest => simp [write_node]

/-- Claim C4, counterexample: parsing the empty input raises nothing and
returns an empty bookmark list — there is no ParseError anywhere in the code,
contradicting the claim that an explicit ParseError is surfaced and no list is
returned. -/
theorem C4_empty_input_cex : parse_bookmarks_simple "" = [] := rfl

/-- Claim C4, amended: empty input is not an error for any of the parsers: the
regex parser returns the empty list, the flat event parser reports no
bookmarks, and the hierarchical parser returns the bare synthetic root; no
ParseError type exists in the repository. -/
theorem C4_empty_input_amended :
    parse_bookmarks_simple "" = []
      ∧ (oRun []).bookmarks = []
      ∧ parseHier [] = HNode.folder (some "root") [] (-1) none [] :=
  ⟨rfl, rfl, rfl⟩

/-- Claim C5, counterexample: in a document of three bookmark lines whose
middle tag has an unterminated href quote, the regex parser extracts the first
bookmark, then the malformed tag's match swallows the next well-formed line:
the output contains a merged garbage record carrying title "t3" with a
corrupted url, and the well-formed record ("u3", "t3") is not extracted — so
one of the other well-formed bookmarks is lost, not recovered. -/
theorem C5_malformed_cex :
    parse_bookmarks_simple (String.mk (wellDoc [("u1", "t1")]
        ++ (malTagD "u2" ++ wellLineD ("u3", "t3"))))
        = [("u1", "t1"), ("u2\n<DT><A HREF=", "t3")]
      ∧ ("u3", "t3") ∉ parse_bookmarks_simple (String.mk (wellDoc [("u1", "t1")]
        ++ (malTagD "u2" ++ wellLineD ("u3", "t3")))) := by
  decide

/-- Claim C5, amended: parsing is total (the embedding is a function) and an
unterminated attribute quote does not corrupt the document beyond one record:
every well-formed bookmark before the malformed tag and every one after the
bookmark immediately following it is extracted intact, while that immediately
following bookmark is merged into the malformed entry — its title survives
attached to a corrupted url, its own (url, title) record is lost. -/
theorem C5_malformed_amended (bms₁ : List (String × String)) (um : String)
    (nxt : String × String) (bms₂ : List (String × String))
    (h1 : ∀ p ∈ bms₁, '"' ∉ p.1.data ∧ '<' ∉ p.2.data)
    (hm : '"' ∉ um.data)
    (hn : '"' ∉ nxt.1.data ∧ '>' ∉ nxt.1.data ∧ '<' ∉ nxt.2.data)
    (h2 : ∀ p ∈ bms₂, '"' ∉ p.1.data ∧ '<' ∉ p.2.data) :
    parse_bookmarks_simple (String.mk (wellDoc bms₁
        ++ (malTagD um ++ (wellLineD nxt ++ wellDoc bms₂))))
      = bms₁.map (fun p => (p.1, trimS p.2))
        ++ (String.mk (um.data ++ '\n' :: lit12), trimS nxt.2)
          :: bms₂.map (fun p => (p.1, trimS p.2)) := by
  unfold parse_bookmarks_simple
  rw [show (String.mk (wellDoc bms₁ ++ (malTagD um ++ (wellLineD nxt ++ wellDoc bms₂)))).data
      = wellDoc bms₁ ++ (malTagD um ++ (wellLineD nxt ++ wellDoc bms₂)) from rfl]
  rw [scan_wellDoc bms₁ h1]
  rw [show wellLineD nxt = wellLineD (nxt.1, nxt.2) from rfl]
  rw [scan_malEntry hm hn.2.1 hn.2.2]
  rw [show wellDoc bms₂ = wellDoc bms₂ ++ [] from (List.append_nil _).symm]
  rw [scan_wellDoc bms₂ h2]
  rw [show scan [] = [] from rfl, List.append_nil]
  rw [List.map_append, List.map_cons, List.map_map, List.map_map]
  rfl

/-- Claim C5, witness for the amended theorem at a concrete document. -/
theorem C5_malformed_amended_witness :
    parse_bookmarks_simple (String.mk (wellDoc [("u1", "t1")]
        ++ (malTagD "u2" ++ (wellLineD ("u3", "t3") ++ wellDoc [("u4", "t4")]))))
      = [("u1", "t1"), ("u2\n<DT><A HREF=", "t3"), ("u4", "t4")] :=
  C5_malformed_amended [("u1", "t1")] "u2" ("u3", "t3") [("u4", "t4")]
    (by decide) (by decide) (by decide) (by decide)

/-- Claim C6, confirmed: feeding bookmarks A, B, C in that order under the
same folder yields exactly the records [A, B, C] in that order, each carrying
the enclosing folder path (titles are stripped, and a record is produced for
each since the titles are non-blank). -/
theorem C6_order (f ua a ub b uc c : String) (hf : trimS f ≠ "") (ha : trimS a ≠ "")
    (hb : trimS b ≠ "") (hc : trimS c ≠ "") :
    (oRun (openFolder f ++ (bmEvs (ua, a) ++ (bmEvs (ub, b)
        ++ (bmEvs (uc, c) ++ [Ev.endTag "dl"]))))).bookmarks
      = [⟨ua, trimS a, trimS f⟩, ⟨ub, trimS b, trimS f⟩, ⟨uc, trimS c, trimS f⟩] := by
  rw [oRun, oRunFrom_append, oRunFrom_append, oRunFrom_append, oRunFrom_append]
  have h1 : oRunFrom oInit (openFolder f) = ⟨[], [trimS f], none, none, false⟩ := by
    simp [openFolder, oInit, oRunFrom, oStep, o_handle_starttag, o_handle_endtag,
      o_handle_data, hf]
  rw [h1, oRun_bm_filled (ua, a) _ rfl ha, oRun_bm_filled (ub, b) _ rfl hb,
    oRun_bm_filled (uc, c) _ rfl hc]
  simp [oRunFrom, oStep, o_handle_endtag, joinWith]

/-- Claim C6, witness at concrete bookmarks A, B, C. -/
theorem C6_order_witness :
    (oRun (openFolder "F" ++ (bmEvs ("u1", "A") ++ (bmEvs ("u2", "B")
        ++ (bmEvs ("u3", "C") ++ [Ev.endTag "dl"]))))).bookmarks
      = [⟨"u1", "A", "F"⟩, ⟨"u2", "B", "F"⟩, ⟨"u3", "C", "F"⟩] :=
  C6_order "F" "u1" "A" "u2" "B" "u3" "C" (by decide) (by decide) (by decide) (by decide)

/-- Claim C7, counterexample: a bookmark element with an empty title
(`<A HREF="http://u"></A>`) produces no record at all in the flat extraction —
it is silently dropped, so the extraction is not total over bookmark nodes. -/
theorem C7_flat_total_cex : (oRun (bmEvs ("http://u", ""))).bookmarks = [] := by
  decide

/-- Claim C7, amended: the flat extraction emits exactly one record for every
bookmark whose title contains non-whitespace text (with the title stripped),
and silently drops every bookmark whose title is empty or whitespace-only;
no other bookmark is lost. -/
theorem C7_flat_total_amended (bms : List (String × String)) :
    (oRun (bms.flatMap bmEvs)).bookmarks
      = bms.filterMap (fun p =>
          if trimS p.2 = "" then none else some ⟨p.1, trimS p.2, ""⟩) := by
  have h := (oRun_bmList bms oInit rfl).1
  rw [oRun]
  rw [h]
  rfl

/-- Claim C8, counterexample: analyze_folder_names does not merely return a
suggestion — it stores it in the tree.  On a folder with empty name holding
three github.com bookmarks, the analyzed tree's folder carries
suggested_name = "GitHub関連" where the input tree had none. -/
theorem C8_advisory_cex :
    getSuggested (analyze_folder_names (HNode.folder (some "") [] 0 none
        [HNode.bookmark "a" "https://github.com/a" 1,
         HNode.bookmark "b" "https://github.com/b" 1,
         HNode.bookmark "c" "https://github.com/c" 1]))
        = some "GitHub関連"
      ∧ getSuggested (HNode.folder (some "") [] 0 none
        [HNode.bookmark "a" "https://github.com/a" 1,
         HNode.bookmark "b" "https://github.com/b" 1,
         HNode.bookmark "c" "https://github.com/c" 1]) = none := by
  decide

/-- Claim C8, amended: the analysis leaves every node's name, url, attributes,
children and their order exactly as before — erasing the separate
suggested_name field makes the analyzed tree identical to the input tree — but
the suggestion is stored on the folder node in that field (the function
returns nothing), for the renderer to consult. -/
theorem C8_advisory_amended (t : HNode) :
    forgetNode (analyze_folder_names t) = forgetNode t :=
  forgetNode_analyzeNode t

/-- Claim C9, confirmed: for every event sequence the current-folder stack is
non-empty with the synthetic root frame at the bottom; an EndTag(DL) on a
stack holding only the root is a no-op; and end-of-stream always yields a tree
rooted at the synthetic root folder (open frames are folded, never an error). -/
theorem C9_stack_safety :
    (∀ evs : List Ev, pathOk (hRun evs))
      ∧ (∀ σ : HState, σ.path.length ≤ 1 → hStep σ (Ev.endTag "dl") = σ)
      ∧ (∀ evs : List Ev, ∃ cs,
          hTree (hRun evs) = HNode.folder (some "root") [] (-1) none cs) := by
  refine ⟨hRun_pathOk, ?_, fun evs => hTree_root _ (hRun_pathOk evs)⟩
  intro σ hlen
  obtain ⟨path, pend, b3, ba, txt, cattrs⟩ := σ
  cases path with
  | nil => simp [hStep, h_handle_endtag]
  | cons a rest =>
    cases rest with
    | nil => simp [hStep, h_handle_endtag]
    | cons b r =>
      exfalso
      simp at hlen

/-- Claim C9, witness: the invariant and the no-op at a concrete state and
event list. -/
theorem C9_stack_safety_witness :
    hInit.path.length ≤ 1
      ∧ hStep hInit (Ev.endTag "dl") = hInit
      ∧ (hRun [Ev.endTag "dl"]).path ≠ [] :=
  ⟨by decide, C9_stack_safety.2.1 hInit (by decide),
    (C9_stack_safety.1 [Ev.endTag "dl"]).1⟩

/-- Claim C10, counterexample: the code validates the whitespace-stripped url,
not the raw url string.  The bookmark with url " http://a" (leading space)
fails the claim's validity predicate — it does not start with "http" — so per
the claim it must be removed; but clean_bookmarks keeps it, and the claim's
own described cleaning (claimClean) removes it. -/
theorem C10_dedup_cex :
    clean_bookmarks [⟨" http://a", "t", ""⟩] = [⟨" http://a", "t", ""⟩]
      ∧ claimValidUrl " http://a" = false
      ∧ claimClean [⟨" http://a", "t", ""⟩] = [] := by
  decide

/-- Claim C10, amended: clean_bookmarks returns exactly the claim's
first-occurrence-per-valid-url subsequence once the validity predicate is
evaluated on the whitespace-stripped URL: for each distinct URL whose stripped
form starts with "http", does not start with chrome://, chrome-extension://,
javascript:, or file://, and contains neither "localhost" nor "127.0.0.1",
exactly the first bookmark carrying it is kept unchanged, in the original
relative order (the result is a sublist of the input); all later duplicates
and all invalid-URL bookmarks are removed. -/
theorem C10_dedup_amended (bms : List OBm) :
    clean_bookmarks bms = claimCleanTrim bms
      ∧ List.Sublist (clean_bookmarks bms) bms :=
  ⟨clean_go_eq_claim bms [] [] (by simp), clean_go_sublist bms []⟩
